import Mathlib

/-!
Verification of the bounded, order-sensitive data structures of the
python-forts repository: the `heapq`-backed priority scheduler
(`TaskScheduler`), the `LRUCache`, the `KSmallest` stream tracker and the
`sliding_window_max` monotonic-deque function.

The embedding translates the Python source directly:

* Python's `heapq.heappush`, `heapq.heappop` and `heapq.heapreplace` are
  modelled over `List α`, with the exact `_siftdown` (bubble-up) and
  `_siftup` (sink-to-leaf then bubble-up) loops of CPython's `heapq.py`.
  The loops are expressed as structurally recursive functions on an explicit
  fuel argument; the wrappers instantiate the fuel with a bound that the
  loop count never exceeds (the loop index strictly decreases, respectively
  strictly increases towards the length), so the fueled functions compute
  exactly the loops.
* Python exceptions (KeyError, ValueError from `deque.remove`, IndexError
  from `popleft` on an empty deque or indexing an empty heap) are modelled
  with `Except PyErr`.
* Python dicts are modelled as association lists in insertion order,
  Python deques of keys as `List String`.
-/

/-- Python exceptions that the modelled code can raise. -/
inductive PyErr where
  | keyError : PyErr
  | valueError : PyErr
  | indexError : PyErr
deriving DecidableEq, Repr

/-- Decidable equality of `Except` results, used to state concrete runs. -/
instance {e a : Type} [DecidableEq e] [DecidableEq a] : DecidableEq (Except e a) :=
  fun x y =>
    match x, y with
    | .ok u, .ok v => decidable_of_iff (u = v) (by simp)
    | .error u, .error v => decidable_of_iff (u = v) (by simp)
    | .ok _, .error _ => isFalse (by simp)
    | .error _, .ok _ => isFalse (by simp)

/-! ### CPython `heapq` -/

/-- CPython `heapq._siftdown(heap, startpos, pos)`: bubble `newitem` up from
`pos` towards `startpos`, moving parents down until a parent not greater than
`newitem` is found.  The loop index `pos` strictly decreases, so `fuel := pos`
iterations always suffice; the fuel-0 fallback writes `newitem` at `pos`,
which agrees with the loop exit. -/
def siftdownFuel {α : Type} [LinearOrder α] (fuel startpos : ℕ) (newitem : α)
    (heap : List α) (pos : ℕ) : List α :=
  match fuel with
  | 0 => heap.set pos newitem
  | fuel + 1 =>
    if startpos < pos then
      let parentpos := (pos - 1) / 2
      let parent := heap.getD parentpos newitem
      if newitem < parent then
        siftdownFuel fuel startpos newitem (heap.set pos parent) parentpos
      else
        heap.set pos newitem
    else
      heap.set pos newitem

/-- CPython `heapq._siftup(heap, pos)` (with `startpos = pos`, `newitem =
heap[pos]` passed explicitly): move the hole at `pos` down to a leaf, always
following the smaller child, then place `newitem` there and bubble it up with
`_siftdown`.  The hole index strictly increases and stays below the length,
so `fuel := heap.length` iterations always suffice; the fuel-0 fallback
performs the loop-exit action. -/
def siftupFuel {α : Type} [LinearOrder α] (fuel startpos : ℕ) (newitem : α)
    (heap : List α) (pos : ℕ) : List α :=
  match fuel with
  | 0 => siftdownFuel pos startpos newitem (heap.set pos newitem) pos
  | fuel + 1 =>
    let endpos := heap.length
    let childpos := 2 * pos + 1
    if childpos < endpos then
      let rightpos := childpos + 1
      let childpos2 :=
        if rightpos < endpos ∧ ¬ heap.getD childpos newitem < heap.getD rightpos newitem then
          rightpos
        else childpos
      siftupFuel fuel startpos newitem (heap.set pos (heap.getD childpos2 newitem)) childpos2
    else
      siftdownFuel pos startpos newitem (heap.set pos newitem) pos

/-- CPython `heapq.heappush(heap, item)`: append `item`, then sift it down
towards the root from the last position. -/
def heappush {α : Type} [LinearOrder α] (heap : List α) (item : α) : List α :=
  siftdownFuel heap.length 0 item (heap ++ [item]) heap.length

/-- CPython `heapq.heappop(heap)`: pop the last element; if the heap is still
non-empty, remember the root, move the last element to the root and sift it
up.  Returns `none` on an empty heap (Python raises IndexError there; the
modelled callers always guard this case). -/
def heappop {α : Type} [LinearOrder α] (heap : List α) : Option (α × List α) :=
  match heap.getLast? with
  | none => none
  | some lastelt =>
    match heap.dropLast with
    | [] => some (lastelt, [])
    | x :: xs => some (x, siftupFuel (xs.length + 1) 0 lastelt (lastelt :: xs) 0)

/-- CPython `heapq.heapreplace(heap, item)`: return the root, put `item` at
the root and sift it up.  Returns `none` on an empty heap (Python raises
IndexError there). -/
def heapreplace {α : Type} [LinearOrder α] (heap : List α) (item : α) :
    Option (α × List α) :=
  match heap with
  | [] => none
  | x :: xs => some (x, siftupFuel (xs.length + 1) 0 item (item :: xs) 0)

/-! ### TaskScheduler (practical_examples.py, example 5) -/

/-- Elements of the scheduler's heap: the Python tuple
`(priority, task_id, description)`, compared lexicographically exactly as
Python compares tuples. -/
abbrev PyTask : Type := Int ×ₗ ℕ ×ₗ String

/-- Build the tuple `(priority, task_id, description)`. -/
def mkTask (priority : Int) (id : ℕ) (description : String) : PyTask :=
  toLex (priority, toLex (id, description))

/-- Third component of a scheduler tuple (the payload description). -/
def taskDesc (t : PyTask) : String := (ofLex (ofLex t).2).2

/-- State of `TaskScheduler`: the heap list and the monotonically increasing
id counter. -/
structure TaskScheduler where
  tasks : List PyTask
  task_id : ℕ
deriving DecidableEq

/-- The scheduler constructed by `TaskScheduler.__init__`. -/
def TaskScheduler.init : TaskScheduler := ⟨[], 0⟩

/-- Python `TaskScheduler.add_task`: push `(priority, task_id, description)`
and increment the counter. -/
def TaskScheduler.add_task (s : TaskScheduler) (priority : Int)
    (description : String) : TaskScheduler :=
  ⟨heappush s.tasks (mkTask priority s.task_id description), s.task_id + 1⟩

/-- Python `TaskScheduler.get_next_task`: pop and return the description if
any task is queued, otherwise return `None` and leave the state unchanged. -/
def TaskScheduler.get_next_task (s : TaskScheduler) :
    Option String × TaskScheduler :=
  match heappop s.tasks with
  | some (t, rest) => (some (taskDesc t), ⟨rest, s.task_id⟩)
  | none => (none, s)

/-- Push a list of `(priority, description)` pairs in order. -/
def TaskScheduler.pushAll (s : TaskScheduler) (ps : List (Int × String)) :
    TaskScheduler :=
  ps.foldl (fun s p => s.add_task p.1 p.2) s

/-- Repeatedly call `get_next_task` while it yields a task, collecting the
descriptions; the fuel is the number of queued tasks, which bounds the number
of successful pops. -/
def drainAux : ℕ → TaskScheduler → List String
  | 0, _ => []
  | fuel + 1, s =>
    match s.get_next_task with
    | (some d, s1) => d :: drainAux fuel s1
    | (none, _) => []

/-- Pop every queued task in order, collecting the descriptions. -/
def TaskScheduler.drain (s : TaskScheduler) : List String :=
  drainAux s.tasks.length s

/-! ### LRUCache (practical_examples.py, example 2) -/

/-- Python dict lookup `d.get(k)` / `k in d` on an insertion-ordered
association list: the value of the first entry with the given key. -/
def dictLookup (d : List (String × Int)) (k : String) : Option Int :=
  (d.find? (fun p => p.1 == k)).map Prod.snd

/-- Python `d[k] = v`: replace the value in place if the key is present,
otherwise append the new entry at the end (dicts preserve insertion order). -/
def dictInsert (d : List (String × Int)) (k : String) (v : Int) :
    List (String × Int) :=
  if (d.find? (fun p => p.1 == k)).isSome then
    d.map (fun p => if p.1 == k then (k, v) else p)
  else
    d ++ [(k, v)]

/-- Python `del d[k]`: remove the entry with the given key. -/
def dictDelete (d : List (String × Int)) (k : String) : List (String × Int) :=
  d.eraseP (fun p => p.1 == k)

/-- Python `deque.remove(k)`: remove the first occurrence of `k`, raising
ValueError when `k` is absent. -/
def dequeRemove (l : List String) (k : String) : Except PyErr (List String) :=
  if k ∈ l then .ok (l.erase k) else .error .valueError

/-- State of `LRUCache`: the fixed capacity, the dict from keys to values and
the recency deque (least recently used at the front). -/
structure LRUCache where
  capacity : Int
  cache : List (String × Int)
  access_order : List String
deriving DecidableEq

/-- Python `LRUCache.__init__(capacity)`: stores the capacity unchecked and
starts with an empty dict and an empty deque. -/
def LRUCache.init (capacity : Int) : LRUCache := ⟨capacity, [], []⟩

/-- Python `LRUCache.get(key)`: on a hit, move the key to the back of the
recency deque and return its value; on a miss return `None` and leave the
state unchanged. -/
def LRUCache.get (s : LRUCache) (key : String) :
    Except PyErr (Option Int × LRUCache) :=
  match dictLookup s.cache key with
  | some v =>
    match dequeRemove s.access_order key with
    | .ok o => .ok (some v, { s with access_order := o ++ [key] })
    | .error e => .error e
  | none => .ok (none, s)

/-- Python `LRUCache.put(key, value)`: refresh the deque position of an
existing key; otherwise, if the dict has reached the capacity, pop the least
recently used key from the front of the deque (IndexError when the deque is
empty) and delete it from the dict; finally store the value and append the
key at the back of the deque. -/
def LRUCache.put (s : LRUCache) (key : String) (value : Int) :
    Except PyErr LRUCache :=
  if (dictLookup s.cache key).isSome then
    match dequeRemove s.access_order key with
    | .ok o =>
      .ok { s with cache := dictInsert s.cache key value,
                   access_order := o ++ [key] }
    | .error e => .error e
  else if s.capacity ≤ (s.cache.length : Int) then
    match s.access_order with
    | [] => .error .indexError
    | oldest :: rest =>
      if (dictLookup s.cache oldest).isSome then
        .ok { s with cache := dictInsert (dictDelete s.cache oldest) key value,
                     access_order := rest ++ [key] }
      else .error .keyError
  else
    .ok { s with cache := dictInsert s.cache key value,
                 access_order := s.access_order ++ [key] }

/-! ### KSmallest (heapq_priority_queues.py) -/

/-- State of `KSmallest`: the bound `k` and the sign-inverted max-heap of the
retained values. -/
structure KSmallest where
  k : Int
  heap : List Int
deriving DecidableEq

/-- Python `KSmallest.__init__(k)`: stores `k` unchecked with an empty heap. -/
def KSmallest.init (k : Int) : KSmallest := ⟨k, []⟩

/-- Python `KSmallest.add(num)`: while fewer than `k` values are retained,
push `-num`; otherwise compare `num` with the current maximum `-heap[0]`
(IndexError on an empty heap, reachable when `k ≤ 0`) and replace the root
when `num` is smaller. -/
def KSmallest.add (s : KSmallest) (num : Int) : Except PyErr KSmallest :=
  if (s.heap.length : Int) < s.k then
    .ok ⟨s.k, heappush s.heap (-num)⟩
  else
    match s.heap with
    | [] => .error .indexError
    | root :: _ =>
      if num < -root then
        match heapreplace s.heap (-num) with
        | some (_, h) => .ok ⟨s.k, h⟩
        | none => .error .indexError
      else
        .ok s

/-- Python `KSmallest.get_smallest()`: `sorted([-x for x in self.heap])`
builds a fresh ascending list; the method reads the state and assigns no
field, so the post-call state is the pre-call state. -/
def KSmallest.get_smallest (s : KSmallest) : List Int × KSmallest :=
  (List.insertionSort (fun a b => a ≤ b) (s.heap.map (fun x => -x)), s)

/-- Feed a stream of values through `KSmallest.add` from left to right. -/
def KSmallest.addAll (s : KSmallest) : List Int → Except PyErr KSmallest
  | [] => .ok s
  | x :: xs =>
    match s.add x with
    | .ok s1 => s1.addAll xs
    | .error e => .error e

/-! ### sliding_window_max (practical_examples.py, example 8) -/

/-- First inner loop of `sliding_window_max`: pop indices from the front of
the deque while the front index has left the window (`window[0] <= i - k`). -/
def swmPopFront (i k : Int) : List ℕ → List ℕ
  | [] => []
  | j :: rest => if (j : Int) ≤ i - k then swmPopFront i k rest else j :: rest

/-- Second inner loop of `sliding_window_max`: pop indices from the back of
the deque while the value at the back is strictly smaller than the incoming
value (`nums[window[-1]] < num`). -/
def swmPopBack (nums : List Int) (num : Int) : List ℕ → List ℕ
  | [] => []
  | j :: rest =>
    match swmPopBack nums num rest with
    | [] => if nums.getD j 0 < num then [] else [j]
    | r1 :: r2 => j :: r1 :: r2

/-- Body of the `for i, num in enumerate(nums)` loop of `sliding_window_max`,
threading the `(result, window)` state over the enumerated stream. -/
def swmLoop (nums : List Int) (k : Int) :
    List (ℕ × Int) → List Int × List ℕ → List Int × List ℕ
  | [], st => st
  | (i, num) :: rest, (result, window) =>
    let window1 := swmPopFront (i : Int) k window
    let window2 := swmPopBack nums num window1
    let window3 := window2 ++ [i]
    let result1 :=
      if k - 1 ≤ (i : Int) then result ++ [nums.getD (window3.headD 0) 0]
      else result
    swmLoop nums k rest (result1, window3)

/-- Python `sliding_window_max(nums, k)`: guard clause for an empty list or
`k == 0`, then the enumerated loop starting from an empty result and an empty
deque. -/
def sliding_window_max (nums : List Int) (k : Int) : List Int :=
  if nums = [] ∨ k = 0 then []
  else (swmLoop nums k nums.enum ([], [])).1

/-! ### Derived definitions used in the statements -/

/-- The tasks that pushing `ps` creates when the id counter starts at `i0`:
each pair `(priority, description)` is tagged with its sequence number. -/
def tagTasks (i0 : ℕ) (ps : List (Int × String)) : List PyTask :=
  (List.enumFrom i0 ps).map (fun q => mkTask q.2.1 q.1 q.2.2)

/-- Well-formed cache states: the recency deque holds exactly the keys of
the dict and the two containers have the same size.  Every state reachable
from `LRUCache.init` satisfies this. -/
def LRUCache.wf (s : LRUCache) : Prop :=
  (∀ k : String, k ∈ s.access_order ↔ (dictLookup s.cache k).isSome) ∧
    s.access_order.length = s.cache.length

/-! ### Heap invariants -/

/-- Binary-heap property of the array representation: along every
parent-child edge the parent is not greater than the child. -/
def heapProp {α : Type} [LinearOrder α] (l : List α) : Prop :=
  ∀ i j : ℕ, (j = 2 * i + 1 ∨ j = 2 * i + 2) →
    ∀ (hj : j < l.length) (hi : i < l.length), l[i] ≤ l[j]

/-- Heap property restricted to the edges that avoid the hole position. -/
def edgesOK {α : Type} [LinearOrder α] (l : List α) (p : ℕ) : Prop :=
  ∀ i j : ℕ, (j = 2 * i + 1 ∨ j = 2 * i + 2) → i ≠ p → j ≠ p →
    ∀ (hj : j < l.length) (hi : i < l.length), l[i] ≤ l[j]

/-- Both children of the hole dominate the pending value `x`. -/
def belowHole {α : Type} [LinearOrder α] (l : List α) (p : ℕ) (x : α) : Prop :=
  ∀ j : ℕ, (j = 2 * p + 1 ∨ j = 2 * p + 2) → ∀ hj : j < l.length, x ≤ l[j]

/-- Both children of the hole dominate the entry at the hole's parent. -/
def gpOK {α : Type} [LinearOrder α] (l : List α) (p : ℕ) : Prop :=
  0 < p → ∀ j : ℕ, (j = 2 * p + 1 ∨ j = 2 * p + 2) →
    ∀ (hj : j < l.length) (hp : (p - 1) / 2 < l.length), l[(p - 1) / 2] ≤ l[j]


/-! ### List helpers for the sift proofs -/

/-- Replacing position `m` with `a` and re-adding the old entry permutes to
pushing `a` on the original list. -/
theorem cons_set_perm {α : Type} (l : List α) (m : ℕ) (hm : m < l.length)
    (a : α) : (l[m] :: l.set m a).Perm (a :: l) := by
  induction l generalizing m with
  | nil => simp at hm
  | cons x xs ih =>
    cases m with
    | zero => simpa using List.Perm.swap a x xs
    | succ m =>
      have hm1 : m < xs.length := by simpa using hm
      simp only [List.getElem_cons_succ, List.set_cons_succ]
      refine List.Perm.trans (List.Perm.swap x (xs[m]) (xs.set m a)) ?step1
      refine List.Perm.trans ((ih m hm1).cons x) ?step2
      exact List.Perm.swap a x xs

/-- Moving the entry at `j` into position `i` and then overwriting position
`j` permutes to overwriting position `i` directly. -/
theorem set_set_perm {α : Type} (l : List α) (i j : ℕ) (hi : i < l.length)
    (hj : j < l.length) (hne : j ≠ i) (a : α) :
    ((l.set i l[j]).set j a).Perm (l.set i a) := by
  have hj1 : j < (l.set i l[j]).length := by simpa using hj
  have h1 := cons_set_perm (l.set i l[j]) j hj1 a
  have e1 : (l.set i l[j])[j] = l[j] := List.getElem_set_ne (by omega) hj1
  rw [e1] at h1
  have h2 := cons_set_perm l i hi (l[j])
  have h3 := cons_set_perm l i hi a
  rw [← Multiset.coe_eq_coe] at h1 h2 h3 ⊢
  simp only [← Multiset.cons_coe] at h1 h2 h3
  have key : l[i] ::ₘ l[j] ::ₘ (((l.set i l[j]).set j a : List α) : Multiset α) =
      l[i] ::ₘ l[j] ::ₘ ((l.set i a : List α) : Multiset α) := by
    calc l[i] ::ₘ l[j] ::ₘ (((l.set i l[j]).set j a : List α) : Multiset α)
        = l[i] ::ₘ (a ::ₘ ((l.set i l[j] : List α) : Multiset α)) := by rw [h1]
      _ = a ::ₘ (l[i] ::ₘ ((l.set i l[j] : List α) : Multiset α)) :=
          Multiset.cons_swap _ _ _
      _ = a ::ₘ (l[j] ::ₘ (l : Multiset α)) := by rw [h2]
      _ = l[j] ::ₘ (a ::ₘ (l : Multiset α)) := Multiset.cons_swap _ _ _
      _ = l[j] ::ₘ (l[i] ::ₘ ((l.set i a : List α) : Multiset α)) := by rw [h3]
      _ = l[i] ::ₘ l[j] ::ₘ ((l.set i a : List α) : Multiset α) :=
          Multiset.cons_swap _ _ _
  exact (Multiset.cons_inj_right _).mp ((Multiset.cons_inj_right _).mp key)

/-- The empty list is a heap. -/
theorem heapProp_nil {α : Type} [LinearOrder α] : heapProp ([] : List α) := by
  intro i j _ hj
  simp at hj

/-- Index congruence for list access, avoiding motive problems. -/
theorem getElem_idx_congr {α : Type} (l : List α) {i j : ℕ} (e : i = j)
    (hj : j < l.length) (hi : i < l.length) : l[i] = l[j] := by
  subst e; rfl

/-- Writing `x` into the hole yields a heap, provided all other edges hold,
the children of the hole dominate `x`, and the entry at the hole's parent is
dominated by `x`. -/
theorem set_hole_heapProp {α : Type} [LinearOrder α] (l : List α) (pos : ℕ)
    (x : α) (he : edgesOK l pos) (hb : belowHole l pos x)
    (hpar : 0 < pos → ∀ hp : (pos - 1) / 2 < l.length, l[(pos - 1) / 2] ≤ x) :
    heapProp (l.set pos x) := by
  intro i j hedge hj hi
  have hj1 : j < l.length := by simpa using hj
  have hi1 : i < l.length := by simpa using hi
  by_cases hip : i = pos
  · have hpb : pos < (l.set pos x).length := by simp only [List.length_set]; omega
    have e1 : (l.set pos x)[i] = x := by
      rw [getElem_idx_congr (l.set pos x) hip hpb hi]
      exact List.getElem_set_self hpb
    have e2 : (l.set pos x)[j] = l[j] := List.getElem_set_ne (by omega) hj
    rw [e1, e2]
    exact hb j (by omega) hj1
  · by_cases hjp : j = pos
    · have hi2 : i = (pos - 1) / 2 := by omega
      have hpb : pos < (l.set pos x).length := by simp only [List.length_set]; omega
      have e1 : (l.set pos x)[j] = x := by
        rw [getElem_idx_congr (l.set pos x) hjp hpb hj]
        exact List.getElem_set_self hpb
      have e2 : (l.set pos x)[i] = l[i] := List.getElem_set_ne (by omega) hi
      rw [e1, e2]
      have hplt : (pos - 1) / 2 < l.length := by omega
      calc l[i] = l[(pos - 1) / 2] := getElem_idx_congr l hi2 hplt hi1
        _ ≤ x := hpar (by omega) hplt
    · have e1 : (l.set pos x)[i] = l[i] := List.getElem_set_ne (by omega) hi
      have e2 : (l.set pos x)[j] = l[j] := List.getElem_set_ne (by omega) hj
      rw [e1, e2]
      exact he i j hedge hip hjp hj1 hi1

/-- The sift-down loop does not change the length. -/
theorem siftdownFuel_length {α : Type} [LinearOrder α] :
    ∀ (fuel s : ℕ) (x : α) (l : List α) (pos : ℕ),
      (siftdownFuel fuel s x l pos).length = l.length := by
  intro fuel
  induction fuel with
  | zero => intro s x l pos; simp [siftdownFuel]
  | succ fuel ih =>
    intro s x l pos
    simp only [siftdownFuel]
    split_ifs <;> simp [ih]

/-- The sift-down loop permutes the array to a plain write of `newitem` at
the starting hole. -/
theorem siftdownFuel_perm {α : Type} [LinearOrder α] :
    ∀ (fuel s : ℕ) (x : α) (l : List α) (pos : ℕ), pos < l.length →
      (siftdownFuel fuel s x l pos).Perm (l.set pos x) := by
  intro fuel
  induction fuel with
  | zero => intro s x l pos _; simp [siftdownFuel]
  | succ fuel ih =>
    intro s x l pos hpos
    simp only [siftdownFuel]
    split_ifs with h1 h2
    · have hpp : (pos - 1) / 2 < l.length := by omega
      have hgd : l.getD ((pos - 1) / 2) x = l[(pos - 1) / 2] :=
        List.getD_eq_getElem l x hpp
      rw [hgd]
      refine List.Perm.trans (ih s x (l.set pos (l[(pos - 1) / 2])) ((pos - 1) / 2)
        (by simpa using hpp)) ?_
      exact set_set_perm l pos ((pos - 1) / 2) hpos hpp (by omega) x
    · exact List.Perm.refl _
    · exact List.Perm.refl _

/-- One bubble-up step of the sift-down loop preserves the hole invariants:
moving the parent value down into the hole re-establishes all three
conditions at the parent position. -/
theorem siftdown_step_inv {α : Type} [LinearOrder α] (l : List α)
    (pos pp : ℕ) (x : α) (hpos : pos < l.length) (h1 : 0 < pos)
    (hppd : pp = (pos - 1) / 2) (hppb : pp < l.length)
    (he : edgesOK l pos) (hgp : gpOK l pos) (hlt : x < l[pp]) :
    edgesOK (l.set pos (l[pp])) pp ∧ belowHole (l.set pos (l[pp])) pp x ∧
      gpOK (l.set pos (l[pp])) pp := by
  refine ⟨?_, ?_, ?_⟩
  · intro i j hedge hine hjne hj hi
    have hj1 : j < l.length := by simpa using hj
    have hi1 : i < l.length := by simpa using hi
    by_cases hjp : j = pos
    · exact absurd (show i = pp by omega) hine
    · by_cases hip : i = pos
      · have hpb : pos < (l.set pos (l[pp])).length := by
          simp only [List.length_set]; omega
        have e1 : (l.set pos (l[pp]))[i] = l[pp] := by
          rw [getElem_idx_congr _ hip hpb hi]
          exact List.getElem_set_self hpb
        have e2 : (l.set pos (l[pp]))[j] = l[j] := List.getElem_set_ne (by omega) hj
        rw [e1, e2]
        calc l[pp] = l[(pos - 1) / 2] := getElem_idx_congr l hppd (by omega) hppb
          _ ≤ l[j] := hgp h1 j (by omega) hj1 (by omega)
      · have e1 : (l.set pos (l[pp]))[i] = l[i] := List.getElem_set_ne (by omega) hi
        have e2 : (l.set pos (l[pp]))[j] = l[j] := List.getElem_set_ne (by omega) hj
        rw [e1, e2]
        exact he i j hedge hip hjp hj1 hi1
  · intro j hedge hj
    have hj1 : j < l.length := by simpa using hj
    by_cases hjp : j = pos
    · have hpb : pos < (l.set pos (l[pp])).length := by
        simp only [List.length_set]; omega
      have e1 : (l.set pos (l[pp]))[j] = l[pp] := by
        rw [getElem_idx_congr _ hjp hpb hj]
        exact List.getElem_set_self hpb
      rw [e1]
      exact le_of_lt hlt
    · have e1 : (l.set pos (l[pp]))[j] = l[j] := List.getElem_set_ne (by omega) hj
      rw [e1]
      exact le_trans (le_of_lt hlt) (he pp j hedge (by omega) hjp hj1 hppb)
  · intro hpp0 j hedge hj hgpb
    have hj1 : j < l.length := by simpa using hj
    have hgpb1 : (pp - 1) / 2 < l.length := by simpa using hgpb
    have e0 : (l.set pos (l[pp]))[(pp - 1) / 2] = l[(pp - 1) / 2] :=
      List.getElem_set_ne (by omega) hgpb
    rw [e0]
    by_cases hjp : j = pos
    · have hpb : pos < (l.set pos (l[pp])).length := by
        simp only [List.length_set]; omega
      have e1 : (l.set pos (l[pp]))[j] = l[pp] := by
        rw [getElem_idx_congr _ hjp hpb hj]
        exact List.getElem_set_self hpb
      rw [e1]
      exact he ((pp - 1) / 2) pp (by omega) (by omega) (by omega) hppb hgpb1
    · have e1 : (l.set pos (l[pp]))[j] = l[j] := List.getElem_set_ne (by omega) hj
      rw [e1]
      exact le_trans (he ((pp - 1) / 2) pp (by omega) (by omega) (by omega) hppb hgpb1)
        (he pp j hedge (by omega) hjp hj1 hppb)

/-- The sift-down loop started at a hole satisfying the invariants produces a
heap. -/
theorem siftdownFuel_heapProp {α : Type} [LinearOrder α] :
    ∀ (fuel : ℕ) (x : α) (l : List α) (pos : ℕ),
      pos ≤ fuel → pos < l.length → edgesOK l pos → belowHole l pos x →
      gpOK l pos → heapProp (siftdownFuel fuel 0 x l pos) := by
  intro fuel
  induction fuel with
  | zero =>
    intro x l pos hf hpos he hb hgp
    have h0 : pos = 0 := by omega
    subst h0
    simp only [siftdownFuel]
    exact set_hole_heapProp l 0 x he hb (fun hp0 _ => absurd hp0 (by omega))
  | succ fuel ih =>
    intro x l pos hf hpos he hb hgp
    have hpp : (pos - 1) / 2 < l.length := by omega
    simp only [siftdownFuel]
    rw [List.getD_eq_getElem l x hpp]
    split_ifs with h1 h2
    · obtain ⟨he2, hb2, hgp2⟩ :=
        siftdown_step_inv l pos ((pos - 1) / 2) x hpos h1 rfl hpp he hgp h2
      exact ih x (l.set pos (l[(pos - 1) / 2])) ((pos - 1) / 2) (by omega)
        (by simp only [List.length_set]; omega) he2 hb2 hgp2
    · exact set_hole_heapProp l pos x he hb (fun hp0 hplt => le_of_not_lt h2)
    · have h0 : pos = 0 := by omega
      subst h0
      exact set_hole_heapProp l 0 x he hb (fun hp0 _ => absurd hp0 (by omega))

/-- The sift-up loop does not change the length. -/
theorem siftupFuel_length {α : Type} [LinearOrder α] :
    ∀ (fuel s : ℕ) (x : α) (l : List α) (pos : ℕ),
      (siftupFuel fuel s x l pos).length = l.length := by
  intro fuel
  induction fuel with
  | zero => intro s x l pos; simp [siftupFuel, siftdownFuel_length]
  | succ fuel ih =>
    intro s x l pos
    simp only [siftupFuel]
    split_ifs <;> simp [ih, siftdownFuel_length]

/-- The sift-up loop permutes the array to a plain write of `newitem` at the
starting hole. -/
theorem siftupFuel_perm {α : Type} [LinearOrder α] :
    ∀ (fuel s : ℕ) (x : α) (l : List α) (pos : ℕ), pos < l.length →
      (siftupFuel fuel s x l pos).Perm (l.set pos x) := by
  intro fuel
  induction fuel with
  | zero =>
    intro s x l pos h
    simp only [siftupFuel]
    refine (siftdownFuel_perm pos s x (l.set pos x) pos (by simpa using h)).trans ?_
    rw [List.set_set]
  | succ fuel ih =>
    intro s x l pos h
    have key : ∀ c2 : ℕ, c2 < l.length → c2 ≠ pos →
        (siftupFuel fuel s x (l.set pos (l.getD c2 x)) c2).Perm (l.set pos x) := by
      intro c2 hc2 hne
      rw [List.getD_eq_getElem l x hc2]
      refine (ih s x (l.set pos (l[c2])) c2 (by simpa using hc2)).trans ?_
      exact set_set_perm l pos c2 h hc2 hne x
    simp only [siftupFuel]
    split_ifs with h1 hcond
    · exact key (2 * pos + 1 + 1) hcond.1 (by omega)
    · exact key (2 * pos + 1) h1 (by omega)
    · refine (siftdownFuel_perm pos s x (l.set pos x) pos (by simpa using h)).trans ?_
      rw [List.set_set]

/-- Loop-exit action of the sift-up loop: when the hole has no child in
range, writing `newitem` and bubbling it up produces a heap. -/
theorem siftup_exit_heapProp {α : Type} [LinearOrder α] (x : α) (l : List α)
    (pos : ℕ) (hpos : pos < l.length) (hleaf : l.length ≤ 2 * pos + 1)
    (he : edgesOK l pos) :
    heapProp (siftdownFuel pos 0 x (l.set pos x) pos) := by
  apply siftdownFuel_heapProp pos x (l.set pos x) pos (le_refl pos)
    (by simpa using hpos)
  · intro i j hedge hine hjne hj hi
    have hj1 : j < l.length := by simpa using hj
    have hi1 : i < l.length := by simpa using hi
    have e1 : (l.set pos x)[i] = l[i] := List.getElem_set_ne (by omega) hi
    have e2 : (l.set pos x)[j] = l[j] := List.getElem_set_ne (by omega) hj
    rw [e1, e2]
    exact he i j hedge hine hjne hj1 hi1
  · intro j hedge hj
    exact absurd (show j < l.length by simpa using hj) (by omega)
  · intro hp0 j hedge hj hq
    exact absurd (show j < l.length by simpa using hj) (by omega)

/-- One descent step of the sift-up loop preserves the hole invariants:
moving the smaller child up into the hole re-establishes both conditions at
the child position. -/
theorem siftup_step_inv {α : Type} [LinearOrder α] (l : List α) (pos c2 : ℕ)
    (hpos : pos < l.length) (hc2b : c2 < l.length)
    (hchild : c2 = 2 * pos + 1 ∨ c2 = 2 * pos + 2)
    (hmin : ∀ c : ℕ, (c = 2 * pos + 1 ∨ c = 2 * pos + 2) → ∀ hcl : c < l.length,
      l[c2] ≤ l[c])
    (he : edgesOK l pos) (hgp : gpOK l pos) :
    edgesOK (l.set pos (l[c2])) c2 ∧ gpOK (l.set pos (l[c2])) c2 := by
  constructor
  · intro i j hedge hine hjne hj hi
    have hj1 : j < l.length := by simpa using hj
    have hi1 : i < l.length := by simpa using hi
    by_cases hip : i = pos
    · have hpb : pos < (l.set pos (l[c2])).length := by
        simp only [List.length_set]; omega
      have e1 : (l.set pos (l[c2]))[i] = l[c2] := by
        rw [getElem_idx_congr _ hip hpb hi]
        exact List.getElem_set_self hpb
      have e2 : (l.set pos (l[c2]))[j] = l[j] := List.getElem_set_ne (by omega) hj
      rw [e1, e2]
      exact hmin j (by omega) hj1
    · by_cases hjp : j = pos
      · have hpb : pos < (l.set pos (l[c2])).length := by
          simp only [List.length_set]; omega
        have e1 : (l.set pos (l[c2]))[i] = l[i] := List.getElem_set_ne (by omega) hi
        have e2 : (l.set pos (l[c2]))[j] = l[c2] := by
          rw [getElem_idx_congr _ hjp hpb hj]
          exact List.getElem_set_self hpb
        rw [e1, e2]
        have h0 : 0 < pos := by omega
        calc l[i] = l[(pos - 1) / 2] := getElem_idx_congr l (by omega) (by omega) hi1
          _ ≤ l[c2] := hgp h0 c2 hchild hc2b (by omega)
      · have e1 : (l.set pos (l[c2]))[i] = l[i] := List.getElem_set_ne (by omega) hi
        have e2 : (l.set pos (l[c2]))[j] = l[j] := List.getElem_set_ne (by omega) hj
        rw [e1, e2]
        exact he i j hedge hip hjp hj1 hi1
  · intro h0 j hedge hj hb2
    have hj1 : j < l.length := by simpa using hj
    have hpb : pos < (l.set pos (l[c2])).length := by
      simp only [List.length_set]; omega
    have e0 : (l.set pos (l[c2]))[(c2 - 1) / 2] = l[c2] := by
      rw [getElem_idx_congr _ (show (c2 - 1) / 2 = pos by omega) hpb hb2]
      exact List.getElem_set_self hpb
    have e1 : (l.set pos (l[c2]))[j] = l[j] := List.getElem_set_ne (by omega) hj
    rw [e0, e1]
    exact he c2 j hedge (by omega) (by omega) hj1 hc2b

/-- The sift-up loop started at a hole satisfying the invariants produces a
heap. -/
theorem siftupFuel_heapProp {α : Type} [LinearOrder α] :
    ∀ (fuel : ℕ) (x : α) (l : List α) (pos : ℕ),
      l.length ≤ fuel + pos + 1 → pos < l.length → edgesOK l pos →
      gpOK l pos → heapProp (siftupFuel fuel 0 x l pos) := by
  intro fuel
  induction fuel with
  | zero =>
    intro x l pos hf hpos he hgp
    simp only [siftupFuel]
    exact siftup_exit_heapProp x l pos hpos (by omega) he
  | succ fuel ih =>
    intro x l pos hf hpos he hgp
    simp only [siftupFuel]
    split_ifs with h1 hcond
    · have hrb : 2 * pos + 1 + 1 < l.length := hcond.1
      have hlt : ¬ l[2 * pos + 1] < l[2 * pos + 1 + 1] := by
        have h2 := hcond.2
        simp only [List.getD_eq_getElem l x (show 2 * pos + 1 < l.length by omega),
          List.getD_eq_getElem l x hrb] at h2
        exact h2
      rw [List.getD_eq_getElem l x hrb]
      have hmin : ∀ c : ℕ, (c = 2 * pos + 1 ∨ c = 2 * pos + 2) →
          ∀ hcl : c < l.length, l[2 * pos + 1 + 1] ≤ l[c] := by
        intro c hc hcl
        rcases hc with hc | hc
        · calc l[2 * pos + 1 + 1] ≤ l[2 * pos + 1] := le_of_not_lt hlt
            _ = l[c] := getElem_idx_congr l hc.symm hcl (by omega)
        · exact le_of_eq (getElem_idx_congr l (by omega) hcl (by omega))
      obtain ⟨he2, hgp2⟩ := siftup_step_inv l pos (2 * pos + 1 + 1) hpos hrb
        (by omega) hmin he hgp
      exact ih x (l.set pos (l[2 * pos + 1 + 1])) (2 * pos + 1 + 1) (by
        simp only [List.length_set]; omega) (by simp only [List.length_set]; omega)
        he2 hgp2
    · have hlb : 2 * pos + 1 < l.length := h1
      rw [List.getD_eq_getElem l x hlb]
      have hcond2 : 2 * pos + 1 + 1 < l.length →
          l.getD (2 * pos + 1) x < l.getD (2 * pos + 1 + 1) x := by
        intro hr
        by_contra hno
        exact hcond ⟨hr, hno⟩
      have hmin : ∀ c : ℕ, (c = 2 * pos + 1 ∨ c = 2 * pos + 2) →
          ∀ hcl : c < l.length, l[2 * pos + 1] ≤ l[c] := by
        intro c hc hcl
        rcases hc with hc | hc
        · exact le_of_eq (getElem_idx_congr l hc.symm hcl (by omega))
        · have hr : 2 * pos + 1 + 1 < l.length := by omega
          have hlt2 := hcond2 hr
          simp only [List.getD_eq_getElem l x hlb, List.getD_eq_getElem l x hr] at hlt2
          calc l[2 * pos + 1] ≤ l[2 * pos + 1 + 1] := le_of_lt hlt2
            _ = l[c] := getElem_idx_congr l (by omega) hcl hr
      obtain ⟨he2, hgp2⟩ := siftup_step_inv l pos (2 * pos + 1) hpos hlb
        (by omega) hmin he hgp
      exact ih x (l.set pos (l[2 * pos + 1])) (2 * pos + 1) (by
        simp only [List.length_set]; omega) (by simp only [List.length_set]; omega)
        he2 hgp2
    · exact siftup_exit_heapProp x l pos hpos (by omega) he

/-- Writing the appended element back to its own position is a no-op. -/
theorem set_append_last {α : Type} (l : List α) (x y : α) :
    (l ++ [x]).set l.length y = l ++ [y] := by
  induction l with
  | nil => rfl
  | cons a as ih => simp [List.set_cons_succ, ih]

/-- Pushing preserves the heap contents up to adding the new item. -/
theorem heappush_perm {α : Type} [LinearOrder α] (l : List α) (x : α) :
    (heappush l x).Perm (x :: l) := by
  unfold heappush
  refine (siftdownFuel_perm l.length 0 x (l ++ [x]) l.length (by simp)).trans ?_
  rw [set_append_last]
  exact List.perm_append_singleton x l

/-- Pushing increases the length by one. -/
theorem heappush_length {α : Type} [LinearOrder α] (l : List α) (x : α) :
    (heappush l x).length = l.length + 1 := by
  unfold heappush
  rw [siftdownFuel_length]
  simp

/-- Pushing onto a heap yields a heap. -/
theorem heappush_heapProp {α : Type} [LinearOrder α] {l : List α} (x : α)
    (h : heapProp l) : heapProp (heappush l x) := by
  unfold heappush
  apply siftdownFuel_heapProp l.length x (l ++ [x]) l.length (le_refl _) (by simp)
  · intro i j hedge hine hjne hj hi
    have hj1 : j < l.length := by
      have : j < l.length + 1 := by simpa using hj
      omega
    have hi1 : i < l.length := by omega
    have e1 : (l ++ [x])[i] = l[i] := List.getElem_append_left hi1
    have e2 : (l ++ [x])[j] = l[j] := List.getElem_append_left hj1
    rw [e1, e2]
    exact h i j hedge hj1 hi1
  · intro j hedge hj
    have : j < l.length + 1 := by simpa using hj
    exact absurd this (by omega)
  · intro hp0 j hedge hj hq
    have : j < l.length + 1 := by simpa using hj
    exact absurd this (by omega)

/-- In a heap, the root is a lower bound for every entry. -/
theorem heapProp_root_le {α : Type} [LinearOrder α] {l : List α}
    (h : heapProp l) : ∀ j : ℕ, ∀ (hj : j < l.length) (h0 : 0 < l.length),
      l[0] ≤ l[j] := by
  intro j
  induction j using Nat.strong_induction_on with
  | _ j ih =>
    intro hj h0
    match j, hj with
    | 0, _ => exact le_refl _
    | j + 1, hj =>
      have hpar : (j + 1 - 1) / 2 < j + 1 := by omega
      have hplt : (j + 1 - 1) / 2 < l.length := by omega
      refine le_trans (ih _ hpar hplt h0) ?_
      exact h ((j + 1 - 1) / 2) (j + 1) (by omega) hj hplt

/-- In a heap, the root is a lower bound for every member. -/
theorem heapProp_root_le_mem {α : Type} [LinearOrder α] {l : List α}
    (h : heapProp l) (h0 : 0 < l.length) : ∀ y ∈ l, l[0] ≤ y := by
  intro y hy
  obtain ⟨j, hj, rfl⟩ := List.mem_iff_getElem.mp hy
  exact heapProp_root_le h j hj h0

/-- Full specification of `heappop` on a non-empty heap presented as
`ys ++ [e]`: it returns the root, which is the minimum, and the remaining
list is again a heap holding the other elements. -/
theorem heappop_spec_aux {α : Type} [LinearOrder α] (ys : List α) (e : α)
    (h : heapProp (ys ++ [e])) :
    ∃ m rest, heappop (ys ++ [e]) = some (m, rest) ∧
      (m :: rest).Perm (ys ++ [e]) ∧ heapProp rest ∧ ∀ y ∈ ys ++ [e], m ≤ y := by
  cases ys with
  | nil =>
    refine ⟨e, [], rfl, by simp, heapProp_nil, ?_⟩
    intro y hy
    have hye : y = e := by simpa using hy
    exact le_of_eq hye.symm
  | cons x xs =>
    have hpop : heappop ((x :: xs) ++ [e]) =
        some (x, siftupFuel (xs.length + 1) 0 e (e :: xs) 0) := by
      unfold heappop
      rw [List.getLast?_concat, List.dropLast_concat]
    have hpos0 : (0 : ℕ) < (e :: xs).length := by simp
    have hperm : (siftupFuel (xs.length + 1) 0 e (e :: xs) 0).Perm (xs ++ [e]) := by
      refine (siftupFuel_perm (xs.length + 1) 0 e (e :: xs) 0 hpos0).trans ?_
      rw [List.set_cons_zero]
      exact (List.perm_append_singleton e xs).symm
    have hheap : heapProp (siftupFuel (xs.length + 1) 0 e (e :: xs) 0) := by
      apply siftupFuel_heapProp (xs.length + 1) e (e :: xs) 0 (by simp) hpos0
      · intro i j hedge hine hjne hj hi
        obtain ⟨i2, rfl⟩ : ∃ i2, i = i2 + 1 := ⟨i - 1, by omega⟩
        obtain ⟨j2, rfl⟩ : ∃ j2, j = j2 + 1 := ⟨j - 1, by omega⟩
        have hj1 : j2 < xs.length := by
          have : j2 + 1 < (e :: xs).length := hj
          simpa using this
        have hi1 : i2 < xs.length := by omega
        have e1 : (e :: xs)[i2 + 1] = xs[i2] := List.getElem_cons_succ e xs i2 hi
        have e2 : (e :: xs)[j2 + 1] = xs[j2] := List.getElem_cons_succ e xs j2 hj
        rw [e1, e2]
        have hj0 : j2 + 1 < ((x :: xs) ++ [e]).length := by simp; omega
        have hi0 : i2 + 1 < ((x :: xs) ++ [e]).length := by simp; omega
        have := h (i2 + 1) (j2 + 1) hedge hj0 hi0
        have hi1e : i2 < (xs ++ [e]).length := by simp; omega
        have hj1e : j2 < (xs ++ [e]).length := by simp; omega
        have f1 : ((x :: xs) ++ [e])[i2 + 1] = xs[i2] := by
          have g1 : ((x :: xs) ++ [e])[i2 + 1] = (xs ++ [e])[i2] :=
            List.getElem_cons_succ x (xs ++ [e]) i2 (by simp; omega)
          rw [g1]
          exact List.getElem_append_left hi1
        have f2 : ((x :: xs) ++ [e])[j2 + 1] = xs[j2] := by
          have g2 : ((x :: xs) ++ [e])[j2 + 1] = (xs ++ [e])[j2] :=
            List.getElem_cons_succ x (xs ++ [e]) j2 (by simp; omega)
          rw [g2]
          exact List.getElem_append_left hj1
        rw [f1, f2] at this
        exact this
      · intro h0
        exact absurd h0 (by omega)
    refine ⟨x, siftupFuel (xs.length + 1) 0 e (e :: xs) 0, hpop, ?_, hheap, ?_⟩
    · exact hperm.cons x
    · intro y hy
      have hx0 : ((x :: xs) ++ [e])[0] = x := rfl
      have hlen0 : 0 < ((x :: xs) ++ [e]).length := by simp
      have := heapProp_root_le_mem h hlen0 y hy
      rwa [hx0] at this

/-- Full specification of `heappop` on a non-empty heap. -/
theorem heappop_spec {α : Type} [LinearOrder α] {l : List α} (h : heapProp l)
    (hne : l ≠ []) :
    ∃ m rest, heappop l = some (m, rest) ∧ (m :: rest).Perm l ∧
      heapProp rest ∧ ∀ y ∈ l, m ≤ y := by
  have hdl := List.dropLast_append_getLast hne
  rw [← hdl] at h ⊢
  exact heappop_spec_aux l.dropLast (l.getLast hne) h

/-! ### Scheduler-level lemmas -/

/-- Pushing a batch of pairs preserves the heap property, extends the heap
contents by the freshly tagged tasks, and advances the id counter. -/
theorem pushAll_spec :
    ∀ (ps : List (Int × String)) (s : TaskScheduler), heapProp s.tasks →
      heapProp (s.pushAll ps).tasks ∧
      (s.pushAll ps).tasks.Perm (s.tasks ++ tagTasks s.task_id ps) ∧
      (s.pushAll ps).task_id = s.task_id + ps.length := by
  intro ps
  induction ps with
  | nil =>
    intro s hs
    refine ⟨hs, ?_, rfl⟩
    simp [TaskScheduler.pushAll, tagTasks, List.enumFrom]
  | cons p ps ih =>
    intro s hs
    have hstep : s.pushAll (p :: ps) = (s.add_task p.1 p.2).pushAll ps := rfl
    have h1 : heapProp (s.add_task p.1 p.2).tasks := heappush_heapProp _ hs
    obtain ⟨ha, hb, hc⟩ := ih (s.add_task p.1 p.2) h1
    refine ⟨by rwa [hstep], ?_, ?_⟩
    · rw [hstep]
      refine hb.trans ?_
      have htag : tagTasks s.task_id (p :: ps) =
          mkTask p.1 s.task_id p.2 :: tagTasks (s.task_id + 1) ps := by
        simp [tagTasks, List.enumFrom_cons]
      rw [htag]
      refine (List.Perm.append_right _
        (heappush_perm s.tasks (mkTask p.1 s.task_id p.2))).trans ?_
      exact List.perm_middle.symm
    · rw [hstep, hc]
      simp [TaskScheduler.add_task]
      omega

/-- Draining a scheduler whose heap satisfies the heap property yields the
descriptions of a sorted permutation of the queued tasks. -/
theorem drainAux_spec :
    ∀ (fuel : ℕ) (h : List PyTask) (n : ℕ), h.length ≤ fuel → heapProp h →
      ∃ ts : List PyTask, drainAux fuel ⟨h, n⟩ = ts.map taskDesc ∧
        ts.Perm h ∧ List.Sorted (fun a b => a ≤ b) ts := by
  intro fuel
  induction fuel with
  | zero =>
    intro h n hlen _
    have hh : h = [] := List.length_eq_zero.mp (by omega)
    subst hh
    exact ⟨[], rfl, List.Perm.refl _, List.sorted_nil⟩
  | succ fuel ih =>
    intro h n hlen hh
    rcases eq_or_ne h [] with rfl | hne
    · exact ⟨[], rfl, List.Perm.refl _, List.sorted_nil⟩
    · obtain ⟨m, rest, hpop, hperm, hheap, hmin⟩ := heappop_spec hh hne
      have hstep : drainAux (fuel + 1) ⟨h, n⟩ = taskDesc m :: drainAux fuel ⟨rest, n⟩ := by
        simp [drainAux, TaskScheduler.get_next_task, hpop]
      have hrl : rest.length ≤ fuel := by
        have := hperm.length_eq
        simp at this
        omega
      obtain ⟨ts, hts1, hts2, hts3⟩ := ih rest n hrl hheap
      refine ⟨m :: ts, ?_, ?_, ?_⟩
      · rw [hstep, hts1]
        rfl
      · exact (hts2.cons m).trans hperm
      · rw [List.sorted_cons]
        refine ⟨?_, hts3⟩
        intro b hb
        have hbr : b ∈ rest := hts2.mem_iff.mp hb
        have hbh : b ∈ h := hperm.mem_iff.mp (List.mem_cons_of_mem m hbr)
        exact hmin b hbh

/-! ### Claim theorems -/

/-- C1: for every sequence of push operations on the priority scheduler,
successive pops return the tasks in non-decreasing priority order and, among
tasks of equal priority, in push order: the drained descriptions are exactly
the pushed tasks sorted by the lexicographic key
(priority, sequence number, description) — the sequence number records push
order, so equal priorities pop first-in first-out; in particular, after
pushing (2,"X"), (1,"Y"), (1,"Z") the pops yield "Y", then "Z", then "X". -/
theorem C1_scheduler_pop_order :
    (∀ ps : List (Int × String),
      (TaskScheduler.init.pushAll ps).drain =
        (List.insertionSort (fun a b => a ≤ b) (tagTasks 0 ps)).map taskDesc) ∧
    (TaskScheduler.init.pushAll [(2, "X"), (1, "Y"), (1, "Z")]).drain =
      ["Y", "Z", "X"] := by
  constructor
  · intro ps
    obtain ⟨hheap, hperm, hid⟩ := pushAll_spec ps TaskScheduler.init heapProp_nil
    have hperm2 : (TaskScheduler.init.pushAll ps).tasks.Perm (tagTasks 0 ps) := by
      simpa [TaskScheduler.init] using hperm
    obtain ⟨ts, h1, h2, h3⟩ := drainAux_spec
      (TaskScheduler.init.pushAll ps).tasks.length
      (TaskScheduler.init.pushAll ps).tasks
      (TaskScheduler.init.pushAll ps).task_id (le_refl _) hheap
    have hdrain : (TaskScheduler.init.pushAll ps).drain = ts.map taskDesc := h1
    rw [hdrain]
    congr 1
    refine List.eq_of_perm_of_sorted ?_ h3 ?_
    · exact (h2.trans hperm2).trans (List.perm_insertionSort _ _).symm
    · exact List.sorted_insertionSort (fun a b => a ≤ b) (tagTasks 0 ps)
  · decide

/-- C2: accessing a key via `get` refreshes its recency rank: from an empty
cache of capacity 2, after put("a",1), put("b",2), get("a"), put("c",3), key
"b" has been evicted (its get is a miss) while key "a" is still present (its
get is a hit returning 1). -/
theorem C2_lru_get_refreshes_recency :
    (do
      let s1 ← (LRUCache.init 2).put "a" 1
      let s2 ← s1.put "b" 2
      let (ra, s3) ← s2.get "a"
      let s4 ← s3.put "c" 3
      let (rb, s5) ← s4.get "b"
      let (ra2, _) ← s5.get "a"
      pure (ra, rb, ra2) : Except PyErr (Option Int × Option Int × Option Int))
    = .ok (some 1, none, some 1) := by decide

/-- C7: a snapshot of the k-smallest tracker is idempotent and leaves the
tracker unchanged: `get_smallest` returns the same list when called twice in
a row, its post-call state is the pre-call state, and a subsequent `add`
behaves exactly as if no snapshot had been taken. -/
theorem C7_snapshot_idempotent :
    ∀ s : KSmallest,
      s.get_smallest.2.get_smallest.1 = s.get_smallest.1 ∧
      s.get_smallest.2 = s ∧
      ∀ n : Int, s.get_smallest.2.add n = s.add n :=
  fun _ => ⟨rfl, rfl, fun _ => rfl⟩

/-- C10: constructing an LRU cache with capacity 0 succeeds and yields the
ordinary empty state, and the first put of a new key then raises IndexError:
the eviction branch pops from the empty recency deque instead of storing or
evicting an entry. -/
theorem C10_capacity_zero_put_raises :
    LRUCache.init 0 = { capacity := 0, cache := [], access_order := [] } ∧
    LRUCache.put (LRUCache.init 0) "a" 1 = .error .indexError := by decide

/-- C5 counterexample: constructing the k-smallest tracker with the invalid
bound k = 0 does not fail fast: it succeeds and yields the ordinary empty
state, and the invalid configuration is discovered only later, when the
first `add` raises IndexError while indexing the empty heap. -/
theorem C5_counterexample_no_fail_fast :
    KSmallest.init 0 = { k := 0, heap := [] } ∧
    KSmallest.add (KSmallest.init 0) 5 = .error .indexError := by decide

/-- C5 amended: no construction parameter is validated.  Construction with a
non-positive capacity or k succeeds and produces an ordinary empty state;
the invalid configuration surfaces only later, if at all: the first put on a
capacity-0 LRU cache raises IndexError, the first add on a k = 0 tracker
raises IndexError, and `sliding_window_max` with window size 0 silently
returns the empty list. -/
theorem C5_amended_no_validation :
    (KSmallest.init 0).heap = [] ∧
    KSmallest.add (KSmallest.init 0) 5 = .error .indexError ∧
    (LRUCache.init 0).cache = [] ∧ (LRUCache.init 0).access_order = [] ∧
    LRUCache.put (LRUCache.init 0) "b" 2 = .error .indexError ∧
    sliding_window_max [1, 2] 0 = [] := by decide

/-- C8: a get on a key that is not in the cache dict is a defined miss that
returns `None` and leaves the state unchanged, and a pop on an empty
scheduler is a defined `None` result that leaves the state unchanged;
neither raises. -/
theorem C8_miss_and_empty_defined :
    (∀ (s : LRUCache) (k : String), dictLookup s.cache k = none →
      s.get k = .ok (none, s)) ∧
    (∀ n : ℕ, (TaskScheduler.mk [] n).get_next_task =
      (none, TaskScheduler.mk [] n)) := by
  constructor
  · intro s k hk
    simp [LRUCache.get, hk]
  · intro n
    rfl

/-- C8 witness: the hypotheses of `C8_miss_and_empty_defined` hold at a
concrete input. -/
theorem C8_witness :
    dictLookup (LRUCache.init 2).cache "q" = none ∧
      (LRUCache.init 2).get "q" = .ok (none, LRUCache.init 2) :=
  ⟨by decide, C8_miss_and_empty_defined.1 (LRUCache.init 2) "q" (by decide)⟩

/-- A dict write makes the key readable with the written value. -/
theorem dictLookup_insert (d : List (String × Int)) (k : String) (v : Int) :
    dictLookup (dictInsert d k v) k = some v := by
  unfold dictInsert
  split_ifs with h
  · induction d with
    | nil => simp at h
    | cons p ds ih =>
      rcases hpk : (p.1 == k) with _ | _
      · have htail : (List.find? (fun p => p.1 == k) ds).isSome := by
          rw [List.find?_cons, hpk] at h
          exact h
        have hmap : List.map (fun p => if p.1 == k then (k, v) else p) (p :: ds) =
            p :: List.map (fun p => if p.1 == k then (k, v) else p) ds := by
          simp only [List.map_cons]
          rw [if_neg (by simp [hpk])]
        rw [hmap, dictLookup, List.find?_cons, hpk]
        simpa [dictLookup] using ih htail
      · have hmap : List.map (fun p => if p.1 == k then (k, v) else p) (p :: ds) =
            (k, v) :: List.map (fun p => if p.1 == k then (k, v) else p) ds := by
          simp only [List.map_cons]
          rw [if_pos hpk]
        rw [hmap, dictLookup, List.find?_cons]
        simp
  · rw [dictLookup, List.find?_append]
    have hnone : List.find? (fun p => p.1 == k) d = none := by
      cases hf : List.find? (fun p => p.1 == k) d with
      | none => rfl
      | some w => rw [hf] at h; simp at h
    rw [hnone]
    simp

/-- A get on a key that is present in the dict and the deque succeeds and
returns the stored value. -/
theorem get_after_insert (s : LRUCache) (k : String) (v : Int)
    (hc : dictLookup s.cache k = some v) (hm : k ∈ s.access_order) :
    s.get k = .ok (some v,
      { s with access_order := s.access_order.erase k ++ [k] }) := by
  simp [LRUCache.get, hc, dequeRemove, hm]

/-- C9: on every well-formed LRU cache with capacity at least 1, a put of
any key and value succeeds, and an immediately following get of that key
hits and returns the stored value. -/
theorem C9_put_get_roundtrip :
    ∀ (s : LRUCache) (k : String) (v : Int), s.wf → 1 ≤ s.capacity →
      ∃ s2 : LRUCache, s.put k v = .ok s2 ∧
        ∃ s3 : LRUCache, s2.get k = .ok (some v, s3) := by
  intro s k v hwf hcap
  by_cases hk : (dictLookup s.cache k).isSome
  · have hmem : k ∈ s.access_order := (hwf.1 k).mpr hk
    have hrem : dequeRemove s.access_order k = .ok (s.access_order.erase k) := by
      simp [dequeRemove, hmem]
    refine ⟨{ s with
      cache := dictInsert s.cache k v
      access_order := s.access_order.erase k ++ [k] }, ?_, ?_⟩
    · simp [LRUCache.put, hk, hrem]
    · refine ⟨_, get_after_insert _ k v ?_ ?_⟩
      · exact dictLookup_insert s.cache k v
      · simp
  · by_cases hfull : s.capacity ≤ (s.cache.length : Int)
    · have hlen1 : 1 ≤ s.cache.length := by
        have h1 : (1 : Int) ≤ (s.cache.length : Int) := le_trans hcap hfull
        exact_mod_cast h1
      obtain ⟨oldest, rest, hor⟩ : ∃ o r, s.access_order = o :: r := by
        cases ho : s.access_order with
        | nil =>
          have := hwf.2
          rw [ho] at this
          simp at this
          omega
        | cons o r => exact ⟨o, r, rfl⟩
      have holdest : (dictLookup s.cache oldest).isSome := by
        refine (hwf.1 oldest).mp ?_
        rw [hor]
        exact List.mem_cons_self _ _
      refine ⟨{ s with
        cache := dictInsert (dictDelete s.cache oldest) k v
        access_order := rest ++ [k] }, ?_, ?_⟩
      · simp [LRUCache.put, hk, hfull, hor, holdest]
      · refine ⟨_, get_after_insert _ k v ?_ ?_⟩
        · exact dictLookup_insert _ k v
        · simp
    · refine ⟨{ s with
        cache := dictInsert s.cache k v
        access_order := s.access_order ++ [k] }, ?_, ?_⟩
      · simp [LRUCache.put, hk, hfull]
      · refine ⟨_, get_after_insert _ k v ?_ ?_⟩
        · exact dictLookup_insert _ k v
        · simp

/-- C9 witness: the hypotheses of `C9_put_get_roundtrip` hold at a concrete
input, the empty cache of capacity 1. -/
theorem C9_witness :
    ∃ s2 : LRUCache, (LRUCache.init 1).put "k" 7 = .ok s2 ∧
      ∃ s3 : LRUCache, s2.get "k" = .ok (some 7, s3) :=
  C9_put_get_roundtrip (LRUCache.init 1) "k" 7
    ⟨by simp [LRUCache.init, dictLookup], by simp [LRUCache.init]⟩ (by decide)

/-- Replacing the root does not change the heap length. -/
theorem heapreplace_length {α : Type} [LinearOrder α] {l l2 : List α}
    {x m : α} (h : heapreplace l x = some (m, l2)) : l2.length = l.length := by
  cases l with
  | nil => simp [heapreplace] at h
  | cons r tl =>
    simp only [heapreplace, Option.some.injEq, Prod.mk.injEq] at h
    rw [← h.2, siftupFuel_length]
    simp

/-- A successful `add` keeps the bound `k` and preserves the invariant that
at most `max k 0` values are retained. -/
theorem KSmallest_add_ok {s s2 : KSmallest} {x : Int} (h : s.add x = .ok s2) :
    s2.k = s.k ∧ ((s.heap.length : Int) ≤ max s.k 0 →
      (s2.heap.length : Int) ≤ max s.k 0) := by
  unfold KSmallest.add at h
  split_ifs at h with hlt
  · simp only [Except.ok.injEq] at h
    subst h
    refine ⟨rfl, fun _ => ?_⟩
    simp only [heappush_length]
    push_cast
    omega
  · cases hh : s.heap with
    | nil => rw [hh] at h; simp at h
    | cons root tl =>
      rw [hh] at h
      have h2 : (if x < -root then
          match heapreplace (root :: tl) (-x) with
          | some (q, hres) => Except.ok (KSmallest.mk s.k hres)
          | none => Except.error PyErr.indexError
        else Except.ok s) = Except.ok s2 := h
      clear h
      rename' h2 => h
      split_ifs at h with hx
      · have hrep : heapreplace (root :: tl) (-x) =
            some (root, siftupFuel (tl.length + 1) 0 (-x) (-x :: tl) 0) := rfl
        rw [hrep] at h
        simp only [Except.ok.injEq] at h
        subst h
        refine ⟨rfl, fun hb => ?_⟩
        have hlen : (siftupFuel (tl.length + 1) 0 (-x) (-x :: tl) 0).length =
            tl.length + 1 := by
          rw [siftupFuel_length]
          simp
        simp only [hlen]
        simpa using hb
      · simp only [Except.ok.injEq] at h
        subst h
        refine ⟨rfl, fun hb => ?_⟩
        rw [hh]
        exact hb

/-- Feeding a stream through `add` keeps the bound `k` and the size
invariant. -/
theorem KSmallest_addAll_ok :
    ∀ (xs : List Int) (s s2 : KSmallest), s.addAll xs = .ok s2 →
      s2.k = s.k ∧ ((s.heap.length : Int) ≤ max s.k 0 →
        (s2.heap.length : Int) ≤ max s.k 0) := by
  intro xs
  induction xs with
  | nil =>
    intro s s2 h
    simp only [KSmallest.addAll, Except.ok.injEq] at h
    subst h
    exact ⟨rfl, fun hb => hb⟩
  | cons x xs ih =>
    intro s s2 h
    simp only [KSmallest.addAll] at h
    cases hadd : s.add x with
    | error e => rw [hadd] at h; simp at h
    | ok s1 =>
      rw [hadd] at h
      obtain ⟨hk1, hb1⟩ := KSmallest_add_ok hadd
      obtain ⟨hk2, hb2⟩ := ih s1 s2 h
      refine ⟨hk2.trans hk1, fun hb => ?_⟩
      have := hb2 (by rw [hk1]; exact hb1 hb)
      rwa [hk1] at this

/-- C4: for the k-smallest tracker with k = 3, adding the stream
[5,2,8,1,9,3,7] yields the snapshot [1,2,3]; and in general, for k ≥ 1, a
snapshot after any successfully added stream is the retained values in
ascending sorted order with length at most k. -/
theorem C4_ksmallest_snapshot :
    ((KSmallest.addAll (KSmallest.init 3) [5, 2, 8, 1, 9, 3, 7]).map
        (fun s => s.get_smallest.1) = .ok [1, 2, 3]) ∧
    (∀ (k : Int) (xs : List Int) (s : KSmallest), 1 ≤ k →
      (KSmallest.init k).addAll xs = .ok s →
      List.Sorted (fun a b => a ≤ b) s.get_smallest.1 ∧
      s.get_smallest.1.Perm (s.heap.map (fun x => -x)) ∧
      (s.get_smallest.1.length : Int) ≤ k) := by
  constructor
  · decide
  · intro k xs s hk h
    obtain ⟨hks, hlen⟩ := KSmallest_addAll_ok xs (KSmallest.init k) s h
    refine ⟨?_, ?_, ?_⟩
    · exact List.sorted_insertionSort (fun a b => a ≤ b) (s.heap.map (fun x => -x))
    · exact List.perm_insertionSort (fun a b => a ≤ b) (s.heap.map (fun x => -x))
    · have hb0 : (((KSmallest.init k).heap.length : Int)) ≤ max (KSmallest.init k).k 0 := by
        simp [KSmallest.init]
      have hbound := hlen hb0
      have hmax : max (KSmallest.init k).k 0 = k := by
        simp [KSmallest.init]
        omega
      rw [hmax] at hbound
      have hslen : s.get_smallest.1.length = s.heap.length := by
        have hp := (List.perm_insertionSort (fun a b => a ≤ b)
          (s.heap.map (fun x => -x))).length_eq
        simp only [KSmallest.get_smallest]
        rw [hp, List.length_map]
      rw [hslen]
      exact hbound

/-- C4 witness: the hypotheses of the general part of
`C4_ksmallest_snapshot` hold at the concrete stream of the example. -/
theorem C4_witness :
    List.Sorted (fun a b => a ≤ b)
        (KSmallest.get_smallest ⟨3, [-3, -2, -1]⟩).1 ∧
      (KSmallest.get_smallest ⟨3, [-3, -2, -1]⟩).1.Perm
        (([-3, -2, -1] : List Int).map (fun x => -x)) ∧
      ((KSmallest.get_smallest ⟨3, [-3, -2, -1]⟩).1.length : Int) ≤ 3 :=
  C4_ksmallest_snapshot.2 3 [5, 2, 8, 1, 9, 3, 7] ⟨3, [-3, -2, -1]⟩
    (by decide) (by decide)

/-- The loop of `sliding_window_max` appends one output per enumerated pair
whose index has reached `k - 1`. -/
theorem swmLoop_result_length (nums : List Int) (k : Int) :
    ∀ (l : List (ℕ × Int)) (res : List Int) (win : List ℕ),
      (swmLoop nums k l (res, win)).1.length =
        res.length + (l.filter (fun q => decide (k - 1 ≤ (q.1 : Int)))).length := by
  intro l
  induction l with
  | nil => intro res win; simp [swmLoop]
  | cons p rest ih =>
    intro res win
    obtain ⟨i, num⟩ := p
    by_cases hc : k - 1 ≤ (i : Int)
    · have hstep : swmLoop nums k ((i, num) :: rest) (res, win) =
          swmLoop nums k rest
            (res ++ [nums.getD ((swmPopBack nums num (swmPopFront (i : Int) k win)
              ++ [i]).headD 0) 0],
             swmPopBack nums num (swmPopFront (i : Int) k win) ++ [i]) := by
        simp only [swmLoop]
        rw [if_pos hc]
      rw [hstep, ih, @List.filter_cons_of_pos (ℕ × Int)
        (fun q => decide (k - 1 ≤ (q.1 : Int))) (i, num) rest (decide_eq_true hc)]
      simp only [List.length_append, List.length_cons, List.length_nil]
      omega
    · have hstep : swmLoop nums k ((i, num) :: rest) (res, win) =
          swmLoop nums k rest
            (res, swmPopBack nums num (swmPopFront (i : Int) k win) ++ [i]) := by
        simp only [swmLoop]
        rw [if_neg hc]
      rw [hstep, ih, @List.filter_cons_of_neg (ℕ × Int)
        (fun q => decide (k - 1 ≤ (q.1 : Int))) (i, num) rest (by simpa using hc)]

/-- Counting the enumerated indices from `j` that have reached `m`. -/
theorem enumFrom_count_ge (m : ℕ) :
    ∀ (l : List Int) (j : ℕ),
      ((List.enumFrom j l).filter (fun q => decide (m ≤ q.1))).length =
        j + l.length - max j m := by
  intro l
  induction l with
  | nil => intro j; simp
  | cons x xs ih =>
    intro j
    rw [List.enumFrom_cons]
    by_cases hc : m ≤ j
    · rw [@List.filter_cons_of_pos (ℕ × Int) (fun q => decide (m ≤ q.1)) (j, x)
        (List.enumFrom (j + 1) xs) (decide_eq_true hc)]
      simp only [List.length_cons, ih (j + 1)]
      omega
    · rw [@List.filter_cons_of_neg (ℕ × Int) (fun q => decide (m ≤ q.1)) (j, x)
        (List.enumFrom (j + 1) xs) (by simpa using hc)]
      rw [ih (j + 1)]
      simp only [List.length_cons]
      omega

/-- C3: the sliding-window maximum with w = 3 on the stream
[1,3,-1,-3,5,3,6,7] reports exactly [3,3,5,5,6,7]; and in general, for
w ≥ 1, exactly one maximum is reported per index from w-1 on, so nothing is
reported for the first w-1 elements and the output length is
(length of the stream) + 1 - w. -/
theorem C3_sliding_window_max :
    sliding_window_max [1, 3, -1, -3, 5, 3, 6, 7] 3 = [3, 3, 5, 5, 6, 7] ∧
    ∀ (nums : List Int) (k : Int), 1 ≤ k →
      (sliding_window_max nums k).length = nums.length + 1 - k.toNat := by
  constructor
  · decide
  · intro nums k hk
    unfold sliding_window_max
    split_ifs with h
    · rcases h with rfl | rfl
      · simp
        omega
      · omega
    · rw [swmLoop_result_length]
      have hfeq : (nums.enum.filter (fun q => decide (k - 1 ≤ (q.1 : Int)))).length =
          (nums.enum.filter (fun q => decide ((k - 1).toNat ≤ q.1))).length := by
        have : ∀ q ∈ nums.enum,
            (decide (k - 1 ≤ (q.1 : Int))) = (decide ((k - 1).toNat ≤ q.1)) := by
          intro q _
          rw [decide_eq_decide]
          omega
        rw [List.filter_congr this]
      rw [hfeq, List.enum_eq_enumFrom, enumFrom_count_ge ((k - 1).toNat) nums 0]
      simp only [List.length_nil, Nat.zero_add, Nat.zero_max]
      omega

/-- C3 witness: the hypothesis of the general part of
`C3_sliding_window_max` holds at the concrete stream of the example. -/
theorem C3_witness :
    (sliding_window_max [1, 3, -1, -3, 5, 3, 6, 7] 3).length =
      ([1, 3, -1, -3, 5, 3, 6, 7] : List Int).length + 1 - (3 : Int).toNat :=
  C3_sliding_window_max.2 [1, 3, -1, -3, 5, 3, 6, 7] 3 (by decide)

/-- The front-eviction loop only removes elements from the front: its result
is a sublist of the deque. -/
theorem swmPopFront_sublist (i k : Int) :
    ∀ l : List ℕ, (swmPopFront i k l).Sublist l := by
  intro l
  induction l with
  | nil => simp [swmPopFront]
  | cons j rest ih =>
    simp only [swmPopFront]
    split_ifs with h
    · exact ih.trans (List.sublist_cons_self j rest)
    · exact List.Sublist.refl _

/-- The back-eviction loop only removes elements from the back: its result
is a sublist of the deque. -/
theorem swmPopBack_sublist (nums : List Int) (num : Int) :
    ∀ l : List ℕ, (swmPopBack nums num l).Sublist l := by
  intro l
  induction l with
  | nil => simp [swmPopBack]
  | cons j rest ih =>
    rcases hpb : swmPopBack nums num rest with _ | ⟨r1, r2⟩
    · show (match swmPopBack nums num rest with
        | [] => if nums.getD j 0 < num then [] else [j]
        | r1 :: r2 => j :: r1 :: r2).Sublist (j :: rest)
      rw [hpb]
      split_ifs with h
      · exact List.nil_sublist _
      · exact List.Sublist.cons₂ j (List.nil_sublist rest)
    · show (match swmPopBack nums num rest with
        | [] => if nums.getD j 0 < num then [] else [j]
        | r1 :: r2 => j :: r1 :: r2).Sublist (j :: rest)
      rw [hpb]
      rw [hpb] at ih
      exact List.Sublist.cons₂ j ih

/-- When the deque values are non-increasing from front to back, every entry
surviving the back-eviction loop has value at least the incoming value: the
loop stops at the first back entry whose value is not smaller, and all
earlier entries dominate it. -/
theorem swmPopBack_bound (nums : List Int) (num : Int) :
    ∀ l : List ℕ, List.Pairwise (fun a b => nums.getD b 0 ≤ nums.getD a 0) l →
      ∀ j ∈ swmPopBack nums num l, num ≤ nums.getD j 0 := by
  intro l
  induction l with
  | nil =>
    intro _ j hj
    simp [swmPopBack] at hj
  | cons a rest ih =>
    intro hpw j hj
    obtain ⟨hhead, htail⟩ := List.pairwise_cons.mp hpw
    rcases hpb : swmPopBack nums num rest with _ | ⟨r1, r2⟩
    · rw [show swmPopBack nums num (a :: rest) =
          (if nums.getD a 0 < num then [] else [a]) from by
        show (match swmPopBack nums num rest with
          | [] => if nums.getD a 0 < num then [] else [a]
          | r1 :: r2 => a :: r1 :: r2) =
            (if nums.getD a 0 < num then [] else [a])
        rw [hpb]] at hj
      split_ifs at hj with hlt
      · simp at hj
      · have hja : j = a := by simpa using hj
        subst hja
        exact le_of_not_lt hlt
    · rw [show swmPopBack nums num (a :: rest) = a :: r1 :: r2 from by
        show (match swmPopBack nums num rest with
          | [] => if nums.getD a 0 < num then [] else [a]
          | r1 :: r2 => a :: r1 :: r2) = a :: r1 :: r2
        rw [hpb]] at hj
      rcases List.mem_cons.mp hj with rfl | hj2
      · have hr1 : r1 ∈ swmPopBack nums num rest := by
          rw [hpb]
          exact List.mem_cons_self _ _
        have hnum : num ≤ nums.getD r1 0 := ih htail r1 hr1
        have hr1rest : r1 ∈ rest := (swmPopBack_sublist nums num rest).subset hr1
        exact le_trans hnum (hhead r1 hr1rest)
      · refine ih htail j ?_
        rw [hpb]
        exact hj2

/-- The loop of `sliding_window_max` distributes over list append. -/
theorem swmLoop_append (nums : List Int) (k : Int) :
    ∀ (l1 l2 : List (ℕ × Int)) (st : List Int × List ℕ),
      swmLoop nums k (l1 ++ l2) st = swmLoop nums k l2 (swmLoop nums k l1 st) := by
  intro l1
  induction l1 with
  | nil => intro l2 st; rfl
  | cons p l1 ih =>
    intro l2 st
    obtain ⟨i, num⟩ := p
    obtain ⟨res, win⟩ := st
    simp only [List.cons_append, swmLoop]
    exact ih l2 _

/-- One advance of the sliding-window loop preserves the deque invariants:
indices strictly increasing and bounded by the incoming index, and values
non-increasing from front to back. -/
theorem swm_step_inv (nums : List Int) (k : Int) (t : ℕ) (num : Int)
    (win : List ℕ) (hnum : nums.getD t 0 = num)
    (hlt : ∀ j ∈ win, j < t)
    (hinc : List.Pairwise (fun a b => a < b) win)
    (hmono : List.Pairwise (fun a b => nums.getD b 0 ≤ nums.getD a 0) win) :
    (∀ j ∈ swmPopBack nums num (swmPopFront (t : Int) k win) ++ [t], j < t + 1) ∧
    List.Pairwise (fun a b => a < b)
      (swmPopBack nums num (swmPopFront (t : Int) k win) ++ [t]) ∧
    List.Pairwise (fun a b => nums.getD b 0 ≤ nums.getD a 0)
      (swmPopBack nums num (swmPopFront (t : Int) k win) ++ [t]) := by
  have hsub : (swmPopBack nums num (swmPopFront (t : Int) k win)).Sublist win :=
    (swmPopBack_sublist nums num _).trans (swmPopFront_sublist _ _ win)
  have hmem : ∀ j ∈ swmPopBack nums num (swmPopFront (t : Int) k win), j < t :=
    fun j hj => hlt j (hsub.subset hj)
  refine ⟨?_, ?_, ?_⟩
  · intro j hj
    rcases List.mem_append.mp hj with hj | hj
    · exact Nat.lt_succ_of_lt (hmem j hj)
    · have hjt : j = t := by simpa using hj
      omega
  · rw [List.pairwise_append]
    refine ⟨List.Pairwise.sublist hsub hinc, List.pairwise_singleton _ _, ?_⟩
    intro a ha b hb
    have hbt : b = t := by simpa using hb
    rw [hbt]
    exact hmem a ha
  · rw [List.pairwise_append]
    refine ⟨List.Pairwise.sublist hsub hmono, List.pairwise_singleton _ _, ?_⟩
    intro a ha b hb
    have hbt : b = t := by simpa using hb
    rw [hbt, hnum]
    exact swmPopBack_bound nums num (swmPopFront (t : Int) k win)
      (List.Pairwise.sublist (swmPopFront_sublist _ _ win) hmono) a ha

/-- C6 counterexample: on the stream [1,1] with w = 2, the second advance
carries an incoming value equal to the back entry; the code evicts only
strictly smaller values (`nums[window[-1]] < num`), so the equal entry stays
and the deque after that advance is [0, 1] with values [1, 1] — not strictly
decreasing. -/
theorem C6_counterexample_equal_values_kept :
    (swmLoop [1, 1] 2 (List.enum [1, 1]) ([], [])).2 = [0, 1] ∧
    ¬ List.Pairwise (fun a b => ([1, 1] : List Int).getD b 0 < ([1, 1] : List Int).getD a 0)
        (swmLoop [1, 1] 2 (List.enum [1, 1]) ([], [])).2 := by
  constructor
  · decide
  · decide

/-- C6 amended: on every advance, the back-eviction loop removes exactly the
entries whose value is strictly smaller than the incoming value, and after
every advance (any processed prefix of the enumerated stream) the deque
holds strictly increasing indices, all at most the last processed index,
whose values are non-increasing (not necessarily strictly decreasing) from
front to back. -/
theorem C6_amended_deque_nonincreasing :
    ∀ (nums : List Int) (k : Int) (t : ℕ),
      (∀ j ∈ (swmLoop nums k (nums.enum.take t) ([], [])).2, j < t) ∧
      List.Pairwise (fun a b => a < b)
        (swmLoop nums k (nums.enum.take t) ([], [])).2 ∧
      List.Pairwise (fun a b => nums.getD b 0 ≤ nums.getD a 0)
        (swmLoop nums k (nums.enum.take t) ([], [])).2 := by
  intro nums k t
  induction t with
  | zero =>
    refine ⟨?_, ?_, ?_⟩ <;> simp [swmLoop]
  | succ t ih =>
    by_cases hlen : t < nums.enum.length
    · have hlen2 : t < nums.length := by simpa using hlen
      have htake : nums.enum.take (t + 1) = nums.enum.take t ++ [(t, nums[t])] := by
        rw [List.take_succ, List.getElem?_eq_getElem hlen]
        rw [List.getElem_enum]
        rfl
      obtain ⟨h1, h2, h3⟩ := ih
      rcases hst : swmLoop nums k (nums.enum.take t) ([], []) with ⟨res, win⟩
      rw [hst] at h1 h2 h3
      simp only at h1 h2 h3
      have hred : (swmLoop nums k [(t, nums[t])] (res, win)).2 =
          swmPopBack nums (nums[t]) (swmPopFront (t : Int) k win) ++ [t] := by
        simp only [swmLoop]
      rw [htake, swmLoop_append, hst, hred]
      exact swm_step_inv nums k t (nums[t]) win
        (List.getD_eq_getElem nums 0 hlen2) h1 h2 h3
    · have ht1 : nums.enum.take (t + 1) = nums.enum :=
        List.take_of_length_le (by omega)
      have ht2 : nums.enum.take t = nums.enum :=
        List.take_of_length_le (by omega)
      obtain ⟨h1, h2, h3⟩ := ih
      rw [ht2] at h1 h2 h3
      rw [ht1]
      exact ⟨fun j hj => Nat.lt_succ_of_lt (h1 j hj), h2, h3⟩
